import Mathlib

/-!
Verification model of the `megagfa` tool (src/megagfa/src/main.rs).

Bytes and packed k-mer bytes are modelled as `Nat` values below 256;
`u8` overflow is made explicit with `% 256` and `&&&`/`|||`/`^^^`/`<<<`/`>>>`.
Shift amounts are reduced `% 8`, matching the release-build semantics of
Rust (`a >> b` masks `b` by the bit width when overflow checks are off;
a debug build would panic on such a shift).
`KmerOrigin` values are modelled as the raw `u32` payload (a `Nat` below
2^32).  Rust panics (index out of bounds, unwrap on `None`, division by
zero, `chunks_exact(0)`) are modelled explicitly: functions that can
panic return `Option`, and a whole run is a `RunResult` that distinguishes
a clean error return (`anyhow::bail!`) from a process-aborting panic.
The `HashMap` of the overlap matcher is modelled as an association list
in first-insertion order; the edge *list* order therefore fixes one of
the orders the hash map could produce, while all set-level statements
are order-independent.
-/

namespace Megagfa

/-- The 256-entry lookup table from `make_lut`: A/a ↦ 0, C/c ↦ 1, G/g ↦ 2,
T/t/U/u ↦ 3, every other byte ↦ 0xff. -/
def lut (b : Nat) : Nat :=
  if b = 65 ∨ b = 97 then 0
  else if b = 67 ∨ b = 99 then 1
  else if b = 71 ∨ b = 103 then 2
  else if b = 84 ∨ b = 116 ∨ b = 85 ∨ b = 117 then 3
  else 255

/-- One step of the fold in `translate_chunk`:
`(kmer, is_error) -> ((kmer << 2) | code, is_error | (code == 0xff))`
with the `u8` shift wrapping modelled by `% 256`. -/
def tc_step (p : Nat × Bool) (c : Nat) : Nat × Bool :=
  (((p.1 <<< 2) % 256) ||| c, p.2 || (c == 255))

/-- `translate_chunk`: fold the LUT codes of the bytes into one packed byte,
tracking whether any byte was outside the nucleotide alphabet. -/
def translateChunk (l : List Nat) : Nat × Bool :=
  l.foldl (fun p b => tc_step p (lut b)) (0, false)

/-- The full 4-byte chunks of a sequence (`chunks_exact(4)`). -/
def chunks4 : List Nat → List (List Nat)
  | a :: b :: c :: d :: rest => [a, b, c, d] :: chunks4 rest
  | _ => []

/-- The remainder of a sequence after its full 4-byte chunks
(`chunks_exact(4).remainder()`). -/
def rem4 : List Nat → List Nat
  | _ :: _ :: _ :: _ :: rest => rem4 rest
  | l => l

/-- Replace the last element of a list, if any (`last_mut`). -/
def setLast : List Nat → Nat → List Nat
  | [], _ => []
  | [_], v => [v]
  | x :: y :: rest, v => x :: setLast (y :: rest) v

/-- `translate`: encode a k-byte window into its packed buffer of
`ceil(k/4)` bytes, or `none` when some byte is outside ACGTUacgtu.
The Rust function writes through a pre-sized `&mut [u8]` buffer of
length `encoding_size(k)`: the zip fills one byte per full chunk and the
final slot is then overwritten with the remainder's encoding.  When the
length is a multiple of 4 the remainder is empty, so the last chunk's
byte is overwritten with 0 — that behaviour is reproduced faithfully. -/
def translate (seq : List Nat) : Option (List Nat) :=
  let encs := (chunks4 seq).map (fun c => (translateChunk c).1)
  let lastE := translateChunk (rem4 seq)
  let isErr := ((chunks4 seq).any (fun c => (translateChunk c).2)) || lastE.2
  let into := if seq.length % 4 = 0 then setLast encs lastE.1 else encs ++ [lastE.1]
  if isErr then none else some into

/-- `u8::reverse_bits`: bit i of the result is bit 7-i of the argument. -/
def revBits8 (b : Nat) : Nat :=
  (b % 2) * 128 + (b / 2 % 2) * 64 + (b / 4 % 2) * 32 + (b / 8 % 2) * 16 +
  (b / 16 % 2) * 8 + (b / 32 % 2) * 4 + (b / 64 % 2) * 2 + (b / 128 % 2)

/-- The per-byte transform inside `reverse_complement`: bit-reverse the
byte, swap adjacent bit pairs, then complement (bitwise NOT on `u8`,
modelled as XOR with 255). -/
def rc_transform (b : Nat) : Nat :=
  let r := revBits8 b
  let bitreversed := ((r &&& 170) >>> 1) ||| ((r &&& 85) <<< 1)
  255 ^^^ bitreversed

/-- The byte-boundary carry loop of `reverse_complement`: each byte is its
own content shifted left by `u`, OR'd with the next byte shifted right by
`used`; the final byte is left unchanged by the loop. -/
def carry_loop (u used : Nat) : List Nat → List Nat
  | [] => []
  | [x] => [x]
  | x :: y :: rest => (((x <<< u) % 256) ||| (y >>> used)) :: carry_loop u used (y :: rest)

/-- `reverse_complement(k, kmer)`: reverse the byte order, transform each
byte, shift the unused padding bits from the head back to the tail, and
mask the final byte.  Shift amounts are reduced `% 8` exactly as a Rust
release build does; for `k % 4 = 0` this makes the first-byte shift a
no-op and the final mask `(1 << 0) - 1 = 0`. -/
def reverse_complement (k : Nat) (kmer : List Nat) : List Nat :=
  let s1 := (kmer.reverse).map rc_transform
  let used := 2 * (k % 4)
  let u := (8 - used) % 8
  match s1 with
  | [] => []
  | h :: t =>
    let s3 := carry_loop u used ((h >>> u) :: t)
    setLast s3 ((s3.getLastD 0) &&& ((1 <<< used) - 1))

/-- `encoding_size(k) = ceil(k / 4)`. -/
def encoding_size (k : Nat) : Nat :=
  k / 4 + (if k % 4 > 0 then 1 else 0)

/-- The contig index carried by a `KmerOrigin` (`self.0 & 0x7fffffff`). -/
def tagIndex (t : Nat) : Nat := t &&& 0x7fffffff

/-- The strand bit of a `KmerOrigin` (`self.0 > 0x7fffffff`). -/
def tagIsRC (t : Nat) : Bool := decide (0x7fffffff < t)

/-- `KmerOrigin::reverse_complement`: toggle the strand bit. -/
def tagFlip (t : Nat) : Nat := t ^^^ 0x80000000

/-- The k-mer store: packed k-mer bytes and origin tags in two parallel
dense buffers, plus the window length. -/
structure Kmers where
  mers : List Nat
  data : List Nat
  k : Nat
deriving DecidableEq

/-- `Kmers::new` (capacity reservation has no observable effect). -/
def Kmers.new (k : Nat) : Kmers := ⟨[], [], k⟩

/-- `Kmers::add`: returns the updated store and the success flag.
Faithful to the Rust control flow: the leading window is encoded and
pushed only `if … .is_some()` (a failure is silently skipped); the
trailing window is encoded with `?`, so its failure aborts with `None`
*after* the leading push has already mutated the store. -/
def Kmers.add (km : Kmers) (seq : List Nat) (index : Nat) : Kmers × Bool :=
  if index ≤ 0x7fffffff then
    let fwdata := index
    let rvdata := index ||| 0x80000000
    if km.k ≤ seq.length then
      let km1 :=
        match translate (seq.take km.k) with
        | some enc => { km with mers := km.mers ++ enc, data := km.data ++ [fwdata] }
        | none => km
      match translate (seq.drop (seq.length - km.k)) with
      | some enc2 =>
        ({ km1 with mers := km1.mers ++ reverse_complement km.k enc2,
                    data := km1.data ++ [rvdata] }, true)
      | none => (km1, false)
    else (km, false)
  else (km, false)

/-- Helper for `chunksExact`, structurally recursive on a fuel argument
so that it reduces definitionally; the fuel is the list length, which
suffices because each step consumes at least one element when `0 < n`. -/
def chunksExactAux (n : Nat) : Nat → List Nat → List (List Nat)
  | 0, _ => []
  | fuel + 1, l =>
    if 0 < n ∧ n ≤ l.length then l.take n :: chunksExactAux n fuel (l.drop n) else []

/-- Split a list into consecutive chunks of exactly `n` elements,
dropping any remainder (`chunks_exact(n)` with `n > 0`). -/
def chunksExact (n : Nat) (l : List Nat) : List (List Nat) :=
  chunksExactAux n l.length l

/-- `Kmers::iter_kmers`: `chunk_size = mers.len() / data.len()` panics by
division by zero when the store is empty, and `chunks_exact(0)` panics
when the quotient is zero; both panics are modelled as `none`. -/
def Kmers.iter_kmers (km : Kmers) : Option (List (Nat × List Nat)) :=
  if km.data.length = 0 then none
  else
    let cs := km.mers.length / km.data.length
    if cs = 0 then none
    else some (km.data.zip (chunksExact cs km.mers))

/-- Association-list lookup, first match wins (`HashMap::get`). -/
def lookupA (m : List (List Nat × List Nat)) (key : List Nat) : Option (List Nat) :=
  match m with
  | [] => none
  | p :: rest => if p.1 = key then some p.2 else lookupA rest key

/-- `map.entry(kmer).or_default().push(tag)` on the association list. -/
def insertTag (m : List (List Nat × List Nat)) (key : List Nat) (t : Nat) :
    List (List Nat × List Nat) :=
  match m with
  | [] => [(key, [t])]
  | p :: rest => if p.1 = key then (p.1, p.2 ++ [t]) :: rest else p :: insertTag rest key t

/-- Build the multimap from packed k-mer bytes to origin tags. -/
def buildMap (l : List (Nat × List Nat)) : List (List Nat × List Nat) :=
  l.foldl (fun m p => insertTag m p.2 p.1) []

/-- Concatenation of the images of a list under a list-valued function. -/
def concatMap {α β : Type} (f : α → List β) : List α → List β
  | [] => []
  | x :: xs => f x ++ concatMap f xs

/-- The edges contributed by one map entry: reverse-complement its key,
look the result up, and pair every found start tag with every flipped
end tag (`Edge { from_end: flip(e), to_start: s }`). -/
def edgeFun (k : Nat) (m : List (List Nat × List Nat)) (p : List Nat × List Nat) :
    List (Nat × Nat) :=
  match lookupA m (reverse_complement k p.1) with
  | some starts => concatMap (fun s => p.2.map (fun e => (tagFlip e, s))) starts
  | none => []

/-- The full edge list of the overlap matcher: iterate the map entries and
collect each entry's contribution. -/
def edgesOfMap (k : Nat) (m : List (List Nat × List Nat)) : List (Nat × Nat) :=
  concatMap (edgeFun k m) m

/-- One parsed FASTA record: identifier bytes and sequence bytes. -/
structure Record where
  id : List Nat
  seq : List Nat
deriving DecidableEq

/-- `is_acceptable_identifier`: first byte in `!`..`)` or `+`..`<` or
`>`..`~`, remaining bytes in `!`..`~`. -/
def is_acceptable_identifier (s : List Nat) : Bool :=
  match s with
  | [] => false
  | first :: rest =>
    ((33 ≤ first && first ≤ 41) || (43 ≤ first && first ≤ 60) ||
      (62 ≤ first && first ≤ 126))
    && rest.all (fun b => 33 ≤ b && b ≤ 126)

/-- Outcome of a whole run: `fatal` models a Rust panic aborting the
process, `err` a clean `anyhow` error return, `ok` a successful value. -/
inductive RunResult (α : Type) where
  | fatal : RunResult α
  | err : String → RunResult α
  | ok : α → RunResult α
deriving DecidableEq

/-- The record loop of `find_edges`: thread the store, append one
identifier slot per record (present only when the record is accepted and
its identifier is valid; an accepted record with an invalid identifier
aborts the whole run with an error). -/
def processRecords (minLen : Nat) (km : Kmers) (ids : List (Option (List Nat)))
    (idx : Nat) : List Record → RunResult (Kmers × List (Option (List Nat)))
  | [] => .ok (km, ids)
  | r :: rest =>
    if minLen ≤ r.seq.length then
      match km.add r.seq idx with
      | (km2, true) =>
        if is_acceptable_identifier r.id then
          processRecords minLen km2 (ids ++ [some r.id]) (idx + 1) rest
        else .err "Invalid record identifier"
      | (km2, false) => processRecords minLen km2 (ids ++ [none]) (idx + 1) rest
    else processRecords minLen km (ids ++ [none]) (idx + 1) rest

/-- `find_edges`: run the record loop, then iterate the stored k-mers
(panicking on an empty store), build the multimap and collect the edges. -/
def find_edges (records : List Record) (k minLen : Nat) :
    RunResult (List (Option (List Nat)) × List (Nat × Nat)) :=
  match processRecords minLen (Kmers.new k) [] 0 records with
  | .fatal => .fatal
  | .err m => .err m
  | .ok (km, ids) =>
    match km.iter_kmers with
    | none => .fatal
    | some l => .ok (ids, edgesOfMap k (buildMap l))

/-- `rc_byte`: the orientation marker, `-` (45) for reverse-complement,
`+` (43) for forward. -/
def rc_byte (rc : Bool) : List Nat := if rc then [45] else [43]

/-- List lookup by position (the slot `identifiers[i]`), `none` when out
of bounds. -/
def nth {α : Type} : List α → Nat → Option α
  | [], _ => none
  | x :: _, 0 => some x
  | _ :: xs, n + 1 => nth xs n

/-- The GFA header line `H\tVN:Z:1.2` as bytes. -/
def headerLine : List Nat := [72, 9, 86, 78, 58, 90, 49, 46, 50]

/-- One `L` line of `print_gfa` for one edge; `none` models the panic of
`identifiers[…].as_ref().unwrap()` when the slot is absent or out of
bounds. -/
def linkLine (ids : List (Option (List Nat))) (e : Nat × Nat) : Option (List Nat) :=
  match nth ids (tagIndex e.1), nth ids (tagIndex e.2) with
  | some (some a), some (some b) =>
    some ([76, 9] ++ a ++ [9] ++ rc_byte (tagIsRC e.1) ++ [9] ++ b ++ [9] ++
      rc_byte (tagIsRC e.2) ++ [9, 42])
  | _, _ => none

/-- The link lines for a list of edges, `none` as soon as one panics. -/
def linesFor (ids : List (Option (List Nat))) : List (Nat × Nat) → Option (List (List Nat))
  | [] => some []
  | e :: rest =>
    match linkLine ids e, linesFor ids rest with
    | some l, some ls => some (l :: ls)
    | _, _ => none

/-- `print_gfa`: the header line followed by one link line per edge;
`none` models a panic while printing. -/
def print_gfa (ids : List (Option (List Nat))) (edges : List (Nat × Nat)) :
    Option (List (List Nat)) :=
  match linesFor ids edges with
  | some ls => some (headerLine :: ls)
  | none => none

/-- The graph-producing part of `main`: `find_edges` then `print_gfa`. -/
def run_main (records : List Record) (k minLen : Nat) : RunResult (List (List Nat)) :=
  match find_edges records k minLen with
  | .fatal => .fatal
  | .err m => .err m
  | .ok (ids, edges) =>
    match print_gfa ids edges with
    | some lines => .ok lines
    | none => .fatal

/-- Modelled from the spec (§8): `rc_string` reverses the string and
complements each base symbolically, A↔T, C↔G, U treated as T (so both U
and T map to A); case is preserved on the complement's case pattern used
by the spec's concrete example is irrelevant because `translate` is
case-insensitive, so the complement is produced in upper case. -/
def rc_string_spec (s : List Nat) : List Nat :=
  s.reverse.map (fun b =>
    if b = 65 ∨ b = 97 then 84
    else if b = 67 ∨ b = 99 then 71
    else if b = 71 ∨ b = 103 then 67
    else if b = 84 ∨ b = 116 ∨ b = 85 ∨ b = 117 then 65
    else b)

/-- Acceptance of a record at a given enumeration index: these are exactly
the conditions under which `Kmers::add` returns `Some` and the identifier
check is reached (note the leading window's validity is *not* among them). -/
def accepts (k minLen : Nat) (r : Record) (idx : Nat) : Prop :=
  minLen ≤ r.seq.length ∧ idx ≤ 0x7fffffff ∧ k ≤ r.seq.length ∧
    (translate (r.seq.drop (r.seq.length - k))).isSome = true

instance (k minLen : Nat) (r : Record) (idx : Nat) :
    Decidable (accepts k minLen r idx) := by
  unfold accepts; infer_instance

/-- Membership of a byte-count function: number of occurrences of a pair
in an edge list. -/
def cnt (x : Nat × Nat) : List (Nat × Nat) → Nat
  | [] => 0
  | y :: ys => (if y = x then 1 else 0) + cnt x ys

/-- Number of occurrences of a tag in a tag list. -/
def cntN (x : Nat) : List Nat → Nat
  | [] => 0
  | y :: ys => (if y = x then 1 else 0) + cntN x ys

/-- Concatenation of all tag lists of a map. -/
def flat : List (List Nat) → List Nat
  | [] => []
  | l :: ls => l ++ flat ls

/-- Boolean membership test. -/
def memB (x : Nat) : List Nat → Bool
  | [] => false
  | y :: ys => (x == y) || memB x ys

/-- Boolean duplicate-freeness. -/
def nodupB : List Nat → Bool
  | [] => true
  | x :: xs => !(memB x xs) && nodupB xs

/-- All origin tags of a map, with multiplicity. -/
def allTags (m : List (List Nat × List Nat)) : List Nat :=
  flat (m.map Prod.snd)

/-- The final-byte layout asserted by the spec for a partial group:
the symbols left-packed into the most-significant bits, unused low bits
zero. -/
def leftPackedClaim (syms : List Nat) : Nat :=
  (syms.foldl (fun a b => a * 4 + b) 0) <<< (2 * (4 - syms.length))

/-- The pruning property asserted by the spec for the emitter: every
identifier slot whose index is referenced by no edge endpoint is absent. -/
def prunedClaim (ids : List (Option (List Nat))) (edges : List (Nat × Nat)) : Prop :=
  ∀ i, i < ids.length →
    (∀ e ∈ edges, tagIndex e.1 ≠ i ∧ tagIndex e.2 ≠ i) → nth ids i = some none

instance (ids : List (Option (List Nat))) (edges : List (Nat × Nat)) :
    Decidable (prunedClaim ids edges) := by
  unfold prunedClaim; infer_instance

/-- A tag occurring somewhere among the values of the map. -/
def tagIn (t : Nat) (m : List (List Nat × List Nat)) : Prop :=
  ∃ p ∈ m, t ∈ p.2

end Megagfa

namespace Megagfa

/-- C1: the claim asserts `reverse_complement` is an involution on encoded
k-mers for every residue of k mod 4, including k a multiple of 4.  The
code violates it when 4 divides k: for k = 8 and s = "AAAAAAAA",
`translate` yields `[0, 0]` (the last byte is overwritten by the empty
remainder's encoding) and applying `reverse_complement` twice yields
`[255, 0]`, not the original value. -/
theorem C1_involution_fails_mod4 :
    translate (List.replicate 8 65) = some [0, 0] ∧
    reverse_complement 8 (reverse_complement 8 [0, 0]) = [255, 0] ∧
    ([255, 0] : List Nat) ≠ [0, 0] := by
  refine ⟨by decide, by decide, by decide⟩

/-- C2: the claim asserts `reverse_complement (encode s)` equals
`encode (rc_string s)` for every nucleotide string.  The concrete k = 10
case from the spec holds, but the general claim fails when 4 divides k:
"ACGTACGT" is its own symbolic reverse complement, yet the code maps its
encoding `[27, 0]` to `[255, 0]`. -/
theorem C2_semantic_equivalence_fails_mod4 :
    (translate [65, 84, 67, 71, 65, 67, 84, 65, 67, 71]).map (reverse_complement 10)
      = translate (rc_string_spec [65, 84, 67, 71, 65, 67, 84, 65, 67, 71]) ∧
    rc_string_spec [65, 67, 71, 84, 65, 67, 71, 84] = [65, 67, 71, 84, 65, 67, 71, 84] ∧
    translate [65, 67, 71, 84, 65, 67, 71, 84] = some [27, 0] ∧
    reverse_complement 8 [27, 0] = [255, 0] ∧
    ([255, 0] : List Nat) ≠ [27, 0] := by
  refine ⟨by decide, by decide, by decide, by decide, by decide⟩

/-- C3: the claim asserts that when either boundary window fails to
encode, `Kmers::add` rejects the contig and leaves the store unchanged.
Both halves fail on the code with k = 3: for seq = "NAAA" (bad leading
window) `add` *accepts* the contig and stores one reverse entry; for
seq = "AAAN" (bad trailing window) `add` rejects but the already-pushed
leading k-mer remains in the store. -/
theorem C3_partial_rejection :
    (Kmers.new 3).add [78, 65, 65, 65] 0 = (⟨[63], [2147483648], 3⟩, true) ∧
    (Kmers.new 3).add [65, 65, 65, 78] 0 = (⟨[0], [0], 3⟩, false) ∧
    (⟨[0], [0], 3⟩ : Kmers) ≠ Kmers.new 3 := by
  refine ⟨by decide, by decide, by decide⟩

/-- C4: the claim asserts every edge endpoint references a present
identifier slot, so the unwraps in `print_gfa` cannot fail.  With k = 3,
min length 1, contigs "AAAN" (leading window valid, trailing window
invalid — its leading k-mer is stored although its slot is absent) and
"TTTT", `find_edges` produces an edge whose endpoint references the
absent slot 0, and printing panics. -/
theorem C4_dangling_edge_endpoint :
    find_edges [⟨[99, 48], [65, 65, 65, 78]⟩, ⟨[99, 49], [84, 84, 84, 84]⟩] 3 1
      = .ok ([none, some [99, 49]],
             [(2147483648, 1), (1, 1), (2147483649, 0), (2147483649, 2147483649)]) ∧
    (2147483648, 1) ∈
      [(2147483648, 1), (1, 1), (2147483649, 0), (2147483649, 2147483649)] ∧
    tagIndex 2147483648 = 0 ∧
    nth [none, some [99, 49]] 0 = some none ∧
    run_main [⟨[99, 48], [65, 65, 65, 78]⟩, ⟨[99, 49], [84, 84, 84, 84]⟩] 3 1
      = .fatal := by
  refine ⟨by decide, by decide, by decide, by decide, by decide⟩

/-- C10: the claim asserts that an input yielding zero stored boundary
k-mers returns successfully with an empty edge list.  In the code,
`iter_kmers` computes `mers.len() / data.len()`, a division by zero on
the empty store, so the run panics: both the empty input and a single
too-short contig end in a panic, not a successful empty result. -/
theorem C10_empty_store_panics :
    find_edges [] 3 1 = .fatal ∧
    find_edges [⟨[120], [65, 67]⟩] 3 1 = .fatal := by
  refine ⟨by decide, by decide⟩

/-- C5 counterexample: the spec asserts the final partial byte left-packs
its k mod 4 symbols into the most-significant bits with the unused low
bits zero, and that byte 0 holds the first symbols with the first symbol
in the two most-significant bits.  For s = "AAAAC", k = 5, the code
produces final byte 1 (right-packed), not the left-packed 64; for
s = "C", k = 1, byte 0 is 1, whose two most-significant bits do not hold
the symbol; and after `reverse_complement` the final byte is again
right-packed (3, not 192). -/
theorem C5_counterexample_left_packing :
    translate [65, 65, 65, 65, 67] = some [0, 1] ∧
    leftPackedClaim [lut 67] = 64 ∧ (1 : Nat) ≠ 64 ∧
    translate [67] = some [1] ∧ (1 : Nat) / 64 ≠ lut 67 ∧
    reverse_complement 5 [0, 1] = [191, 3] ∧
    leftPackedClaim [lut 84] = 192 ∧ (3 : Nat) ≠ 192 := by
  refine ⟨by decide, by decide, by decide, by decide, by decide, by decide, by decide,
    by decide⟩

/-- C7 counterexample: the spec asserts that identifier slots referenced
by no edge are set absent before emission (with trailing absent slots
truncated).  For the single contig "AACC" (k = 3, min length 1) the edge
list is empty, yet `find_edges` returns the slot still present: no
pruning of any kind happens in the code. -/
theorem C7_counterexample_no_pruning :
    find_edges [⟨[99, 48], [65, 65, 67, 67]⟩] 3 1 = .ok ([some [99, 48]], []) ∧
    ¬ prunedClaim [some [99, 48]] [] := by
  refine ⟨by decide, by decide⟩

end Megagfa

namespace Megagfa

theorem lut_cases (b : Nat) : lut b = 255 ∨ lut b < 4 := by
  unfold lut
  by_cases h1 : b = 65 ∨ b = 97
  · simp [h1]
  · by_cases h2 : b = 67 ∨ b = 99
    · simp [h1, h2]
    · by_cases h3 : b = 71 ∨ b = 103
      · simp [h1, h2, h3]
      · by_cases h4 : b = 84 ∨ b = 116 ∨ b = 85 ∨ b = 117
        · simp [h1, h2, h3, h4]
        · simp [h1, h2, h3, h4]

theorem lut_lt_of_ne (b : Nat) (h : lut b ≠ 255) : lut b < 4 :=
  (lut_cases b).resolve_left h

theorem tc_fold_flag : ∀ (l : List Nat), (∀ b ∈ l, lut b ≠ 255) → ∀ (a : Nat),
    (l.foldl (fun p b => tc_step p (lut b)) (a, false)).2 = false
  | [], _, _ => rfl
  | b :: bs, h, a => by
    have hb : (lut b == 255) = false := by
      have := h b (by simp)
      simp [this]
    show (bs.foldl (fun p b => tc_step p (lut b)) (tc_step (a, false) (lut b))).2 = false
    have hstep : tc_step (a, false) (lut b) = (((a <<< 2) % 256) ||| lut b, false) := by
      simp [tc_step, hb]
    rw [hstep]
    exact tc_fold_flag bs (fun x hx => h x (by simp [hx])) _

theorem tc_fold_bound : ∀ (l : List Nat), (∀ b ∈ l, lut b < 4) →
    ∀ (a m : Nat) (fl : Bool), a < 2 ^ m → m + 2 * l.length ≤ 8 →
    (l.foldl (fun p b => tc_step p (lut b)) (a, fl)).1 < 2 ^ (m + 2 * l.length)
  | [], _, a, m, fl, ha, _ => by simpa using ha
  | b :: bs, h, a, m, fl, ha, hm => by
    have hlen : m + 2 * (b :: bs).length = (m + 2) + 2 * bs.length := by
      rw [List.length_cons]; ring
    rw [hlen]
    show (bs.foldl (fun p b => tc_step p (lut b)) (tc_step (a, fl) (lut b))).1
        < 2 ^ ((m + 2) + 2 * bs.length)
    have hb : lut b < 4 := h b (by simp)
    have hshift : a <<< 2 = a * 4 := by
      have := Nat.shiftLeft_eq a 2
      simpa using this
    have ha4 : a * 4 < 2 ^ (m + 2) := by
      have : 2 ^ (m + 2) = 2 ^ m * 4 := by ring
      rw [this]; omega
    have hlt256 : a * 4 < 256 := by
      calc a * 4 < 2 ^ (m + 2) := ha4
        _ ≤ 2 ^ 8 := Nat.pow_le_pow_right (by norm_num) (by simp at hm ⊢; omega)
        _ = 256 := by norm_num
    have hmod : (a <<< 2) % 256 = a * 4 := by
      rw [hshift, Nat.mod_eq_of_lt hlt256]
    have hb2 : lut b < 2 ^ (m + 2) := by
      have : (4 : Nat) = 2 ^ 2 := by norm_num
      have h4le : (2 : Nat) ^ 2 ≤ 2 ^ (m + 2) := Nat.pow_le_pow_right (by norm_num) (by omega)
      omega
    have hv : ((a <<< 2) % 256) ||| lut b < 2 ^ (m + 2) := by
      rw [hmod]
      exact Nat.or_lt_two_pow ha4 hb2
    have hstep : tc_step (a, fl) (lut b) = (((a <<< 2) % 256) ||| lut b, fl || (lut b == 255)) := rfl
    rw [hstep]
    exact tc_fold_bound bs (fun x hx => h x (by simp [hx])) _ (m + 2) _ hv
      (by simp at hm ⊢; omega)

theorem translateChunk_flag (l : List Nat) (h : ∀ b ∈ l, lut b ≠ 255) :
    (translateChunk l).2 = false :=
  tc_fold_flag l h 0

theorem translateChunk_lt (l : List Nat) (h : ∀ b ∈ l, lut b < 4) (hl : l.length ≤ 4) :
    (translateChunk l).1 < 2 ^ (2 * l.length) := by
  have := tc_fold_bound l h 0 0 false (by norm_num) (by omega)
  simpa using this

theorem mem_of_mem_chunks4 : ∀ (s c : List Nat), c ∈ chunks4 s → ∀ b ∈ c, b ∈ s
  | [], c, hc, x, hx => by simp [chunks4] at hc
  | [a], c, hc, x, hx => by simp [chunks4] at hc
  | [a, b], c, hc, x, hx => by simp [chunks4] at hc
  | [a, b, d], c, hc, x, hx => by simp [chunks4] at hc
  | a :: b :: d :: e :: rest, c, hc, x, hx => by
    simp only [chunks4, List.mem_cons] at hc
    rcases hc with h | h
    · subst h
      simp only [List.mem_cons] at hx ⊢
      tauto
    · have := mem_of_mem_chunks4 rest c h x hx
      simp [this]

theorem mem_of_mem_rem4 : ∀ (s : List Nat) (b : Nat), b ∈ rem4 s → b ∈ s
  | [], x, hx => hx
  | [a], x, hx => hx
  | [a, b], x, hx => hx
  | [a, b, c], x, hx => hx
  | a :: b :: c :: d :: rest, x, hx => by
    have : x ∈ rem4 rest := hx
    have := mem_of_mem_rem4 rest x this
    simp [this]

theorem rem4_length : ∀ s : List Nat, (rem4 s).length = s.length % 4
  | [] => rfl
  | [_] => rfl
  | [_, _] => rfl
  | [_, _, _] => rfl
  | a :: b :: c :: d :: rest => by
    show (rem4 rest).length = (rest.length + 4) % 4
    rw [Nat.add_mod_right]
    exact rem4_length rest

theorem translate_eq_of_valid (s : List Nat) (h : ∀ b ∈ s, lut b ≠ 255)
    (h4 : s.length % 4 ≠ 0) :
    translate s = some ((chunks4 s).map (fun c => (translateChunk c).1)
      ++ [(translateChunk (rem4 s)).1]) := by
  unfold translate
  have hany : ((chunks4 s).any (fun c => (translateChunk c).2)) = false := by
    rw [List.any_eq_false]
    intro c hc
    simp only [Bool.not_eq_true]
    exact translateChunk_flag c (fun b hb => h b (mem_of_mem_chunks4 s c hc b hb))
  have hrem : (translateChunk (rem4 s)).2 = false :=
    translateChunk_flag _ (fun b hb => h b (mem_of_mem_rem4 s b hb))
  simp [hany, hrem, h4]

theorem getLastD_concat : ∀ (l : List Nat) (x d : Nat), (l ++ [x]).getLastD d = x
  | [], x, d => rfl
  | a :: rest, x, d => by
    rw [List.cons_append, List.getLastD_cons]
    exact getLastD_concat rest x a

theorem getLastD_setLast : ∀ (l : List Nat) (v d : Nat), l ≠ [] →
    (setLast l v).getLastD d = v
  | [], _, _, h => absurd rfl h
  | [_], v, d, _ => rfl
  | x :: y :: rest, v, d, _ => by
    show (x :: setLast (y :: rest) v).getLastD d = v
    rw [List.getLastD_cons]
    exact getLastD_setLast (y :: rest) v x (by simp)

theorem carry_loop_ne_nil (u v x : Nat) (t : List Nat) : carry_loop u v (x :: t) ≠ [] := by
  cases t <;> simp [carry_loop]

theorem rc_last_lt (k : Nat) (l : List Nat) (h : l ≠ []) :
    (reverse_complement k l).getLastD 0 < 2 ^ (2 * (k % 4)) := by
  have hs1 : (l.reverse.map rc_transform) ≠ [] := by
    intro hc
    have : l.reverse = [] := by
      cases hrev : l.reverse with
      | nil => rfl
      | cons a t => rw [hrev] at hc; simp at hc
    have : l = [] := by simpa using congrArg List.reverse this
    exact h this
  obtain ⟨hd, tl, hs⟩ := List.exists_cons_of_ne_nil hs1
  unfold reverse_complement
  rw [hs]
  have hne := carry_loop_ne_nil ((8 - 2 * (k % 4)) % 8) (2 * (k % 4))
    (hd >>> ((8 - 2 * (k % 4)) % 8)) tl
  rw [getLastD_setLast _ _ _ hne]
  have hle : ((carry_loop ((8 - 2 * (k % 4)) % 8) (2 * (k % 4))
      (hd >>> ((8 - 2 * (k % 4)) % 8) :: tl)).getLastD 0) &&& ((1 <<< (2 * (k % 4))) - 1)
      ≤ (1 <<< (2 * (k % 4))) - 1 := Nat.and_le_right
  have hpow : (1 : Nat) <<< (2 * (k % 4)) = 2 ^ (2 * (k % 4)) := by
    rw [Nat.shiftLeft_eq, Nat.one_mul]
  have hpos : 0 < 2 ^ (2 * (k % 4)) := Nat.pos_pow_of_pos _ (by norm_num)
  rw [hpow] at hle ⊢
  omega

theorem chunks4_cons4 (a b c d : Nat) (rest : List Nat) :
    chunks4 (a :: b :: c :: d :: rest) = [a, b, c, d] :: chunks4 rest := rfl

theorem packB4_div64 : ∀ w, w < 4 → ∀ x, x < 4 → ∀ y, y < 4 → ∀ z, z < 4 →
    (List.foldl tc_step ((0 : Nat), false) [w, x, y, z]).1 / 64 = w := by decide

theorem translateChunk_as_codes (l : List Nat) :
    translateChunk l = List.foldl tc_step (0, false) (l.map lut) := by
  unfold translateChunk
  rw [List.foldl_map]

end Megagfa

namespace Megagfa

/-- C5 (amended): for a window of exactly k valid nucleotides with k not a
multiple of 4, encoding succeeds; the final partial byte holds its
k mod 4 symbols *right-packed in the least-significant bits* with the
unused *high* bits zero (it equals the remainder fold and is below
2^(2*(k mod 4))); when the window has at least four symbols, byte 0 holds
the first four symbols with the first symbol in the two most-significant
bits; and this right-packed zero-high-bits form of the final byte also
holds after `reverse_complement`. -/
theorem C5_amended_packing (k : Nat) (s : List Nat) (hlen : s.length = k)
    (h4 : k % 4 ≠ 0) (hv : ∀ b ∈ s, lut b ≠ 255) :
    ∃ enc, translate s = some enc ∧
      enc.getLastD 0 = (translateChunk (rem4 s)).1 ∧
      enc.getLastD 0 < 2 ^ (2 * (k % 4)) ∧
      (∀ a b c d t, s = a :: b :: c :: d :: t →
        enc.headD 0 = (translateChunk [a, b, c, d]).1 ∧ enc.headD 0 / 64 = lut a) ∧
      (reverse_complement k enc).getLastD 0 < 2 ^ (2 * (k % 4)) := by
  have htr := translate_eq_of_valid s hv (by rw [hlen]; exact h4)
  refine ⟨_, htr, ?_, ?_, ?_, ?_⟩
  · exact getLastD_concat _ _ _
  · rw [getLastD_concat]
    have hrl : (rem4 s).length = k % 4 := by rw [rem4_length, hlen]
    have hb := translateChunk_lt (rem4 s)
      (fun b hb => lut_lt_of_ne b (hv b (mem_of_mem_rem4 s b hb))) (by omega)
    rw [hrl] at hb
    exact hb
  · intro a b c d t hs
    have hhead : ((chunks4 s).map (fun c => (translateChunk c).1)
        ++ [(translateChunk (rem4 s)).1]).headD 0 = (translateChunk [a, b, c, d]).1 := by
      subst hs
      rw [chunks4_cons4]
      simp
    refine ⟨hhead, ?_⟩
    rw [hhead]
    have hva : lut a < 4 := lut_lt_of_ne a (hv a (by simp [hs]))
    have hvb : lut b < 4 := lut_lt_of_ne b (hv b (by simp [hs]))
    have hvc : lut c < 4 := lut_lt_of_ne c (hv c (by simp [hs]))
    have hvd : lut d < 4 := lut_lt_of_ne d (hv d (by simp [hs]))
    have hcodes : translateChunk [a, b, c, d]
        = List.foldl tc_step (0, false) [lut a, lut b, lut c, lut d] := by
      rw [translateChunk_as_codes]
      rfl
    rw [hcodes]
    exact packB4_div64 (lut a) hva (lut b) hvb (lut c) hvc (lut d) hvd
  · apply rc_last_lt
    simp

/-- Witness for C5 (amended) at k = 5, s = "AAAAC". -/
theorem C5_amended_packing_witness :
    ∃ enc, translate [65, 65, 65, 65, 67] = some enc ∧
      enc.getLastD 0 = (translateChunk (rem4 [65, 65, 65, 65, 67])).1 ∧
      enc.getLastD 0 < 2 ^ (2 * (5 % 4)) ∧
      (∀ a b c d t, [65, 65, 65, 65, 67] = a :: b :: c :: d :: t →
        enc.headD 0 = (translateChunk [a, b, c, d]).1 ∧ enc.headD 0 / 64 = lut a) ∧
      (reverse_complement 5 enc).getLastD 0 < 2 ^ (2 * (5 % 4)) :=
  C5_amended_packing 5 [65, 65, 65, 65, 67] rfl (by decide) (by decide)

end Megagfa

namespace Megagfa

theorem nth_set_ne {α : Type} : ∀ (l : List α) (i p : Nat) (a : α), p ≠ i →
    nth (l.set i a) p = nth l p
  | [], _, _, _, _ => rfl
  | _ :: _, 0, 0, _, h => absurd rfl h
  | _ :: _, 0, _ + 1, _, _ => rfl
  | _ :: _, _ + 1, 0, _, _ => rfl
  | _ :: xs, i + 1, p + 1, a, h =>
    nth_set_ne xs i p a (fun hc => h (by rw [hc]))

theorem linkLine_set_irrel (ids : List (Option (List Nat))) (i : Nat) (e : Nat × Nat)
    (h1 : tagIndex e.1 ≠ i) (h2 : tagIndex e.2 ≠ i) :
    linkLine (ids.set i none) e = linkLine ids e := by
  unfold linkLine
  rw [nth_set_ne _ _ _ _ h1, nth_set_ne _ _ _ _ h2]

theorem linesFor_set : ∀ (edges : List (Nat × Nat)) (ids : List (Option (List Nat))) (i : Nat),
    (∀ e ∈ edges, tagIndex e.1 ≠ i ∧ tagIndex e.2 ≠ i) →
    linesFor (ids.set i none) edges = linesFor ids edges
  | [], _, _, _ => rfl
  | e :: rest, ids, i, h => by
    unfold linesFor
    rw [linkLine_set_irrel ids i e (h e (by simp)).1 (h e (by simp)).2,
      linesFor_set rest ids i (fun x hx => h x (by simp [hx]))]

/-- C7 (amended): no pruning happens in the code — `find_edges` hands the
identifier table to emission unchanged — but the output consists solely
of the header line and one link line per edge, each reading only the two
endpoint slots of that edge; consequently the slot of a contig referenced
by no edge can be blanked without changing the emitted output, which is
the observable sense in which an edge-less contig does not appear in the
final output. -/
theorem C7_amended_no_pruning (ids : List (Option (List Nat))) (edges : List (Nat × Nat))
    (i : Nat) (h : ∀ e ∈ edges, tagIndex e.1 ≠ i ∧ tagIndex e.2 ≠ i) :
    print_gfa (ids.set i none) edges = print_gfa ids edges := by
  unfold print_gfa
  rw [linesFor_set edges ids i h]

/-- Witness for C7 (amended): a two-contig table where only contig 0 is
referenced by the single edge; blanking slot 1 leaves the output
unchanged. -/
theorem C7_amended_no_pruning_witness :
    print_gfa ([some [97], some [98]].set 1 none) [(0, 0)]
      = print_gfa [some [97], some [98]] [(0, 0)] :=
  C7_amended_no_pruning [some [97], some [98]] [(0, 0)] 1 (by decide)

end Megagfa

namespace Megagfa

theorem Kmers.add_k (km : Kmers) (seq : List Nat) (i : Nat) :
    ((km.add seq i).1).k = km.k := by
  unfold Kmers.add
  split
  · split
    · split
      · split <;> rfl
      · split <;> rfl
    · rfl
  · rfl

theorem Kmers.add_true (km : Kmers) (seq : List Nat) (i : Nat)
    (h1 : i ≤ 0x7fffffff) (h2 : km.k ≤ seq.length)
    (h3 : (translate (seq.drop (seq.length - km.k))).isSome = true) :
    (km.add seq i).2 = true := by
  unfold Kmers.add
  rw [if_pos h1, if_pos h2]
  obtain ⟨enc2, henc⟩ := Option.isSome_iff_exists.mp h3
  simp [henc]

theorem processRecords_err_of_bad (k minLen : Nat) :
    ∀ (records : List Record) (km : Kmers) (ids : List (Option (List Nat)))
      (idx j : Nat) (r : Record), km.k = k → nth records j = some r →
      accepts k minLen r (idx + j) → is_acceptable_identifier r.id = false →
      ∃ msg, processRecords minLen km ids idx records = .err msg
  | [], _, _, _, j, _, _, hr, _, _ => by cases j <;> cases hr
  | r0 :: rest, km, ids, idx, 0, r, hk, hr, hacc, hbad => by
    have hr0 : r0 = r := by
      have h : some r0 = some r := hr
      cases h
      rfl
    subst hr0
    obtain ⟨hmin, hidx, hklen, htr⟩ := hacc
    have htrue : (km.add r0.seq idx).2 = true := by
      apply Kmers.add_true km r0.seq idx (by omega) (by omega)
      rw [hk]
      exact htr
    unfold processRecords
    rw [if_pos hmin]
    cases hadd : km.add r0.seq idx with
    | mk km2 fl =>
      rw [hadd] at htrue
      cases fl
      · cases htrue
      · simp [hbad]
  | r0 :: rest, km, ids, idx, j + 1, r, hk, hr, hacc, hbad => by
    have hacc2 : accepts k minLen r ((idx + 1) + j) := by
      have h : (idx + 1) + j = idx + (j + 1) := by omega
      rw [h]
      exact hacc
    unfold processRecords
    by_cases hmin : minLen ≤ r0.seq.length
    · rw [if_pos hmin]
      cases hadd : km.add r0.seq idx with
      | mk km2 fl =>
        have hk2 : km2.k = k := by
          have h := Kmers.add_k km r0.seq idx
          rw [hadd] at h
          rw [← hk]
          exact h
        cases fl
        · exact processRecords_err_of_bad k minLen rest km2 (ids ++ [none]) (idx + 1) j r
            hk2 hr hacc2 hbad
        · by_cases hid : is_acceptable_identifier r0.id = true
          · simp only [hid, if_true]
            exact processRecords_err_of_bad k minLen rest km2 (ids ++ [some r0.id]) (idx + 1)
              j r hk2 hr hacc2 hbad
          · simp only [hid, if_false, if_neg]
            exact ⟨_, rfl⟩
    · rw [if_neg hmin]
      exact processRecords_err_of_bad k minLen rest km (ids ++ [none]) (idx + 1) j r
        hk hr hacc2 hbad

end Megagfa

namespace Megagfa

/-- C9: if any record that reaches acceptance (long enough, index in
range, trailing window encodable) has an identifier violating the GFA
grammar, the whole run fails: `find_edges` returns an error, so
`print_gfa` is never called and the run produces no output at all, not
even the header line. -/
theorem C9_invalid_identifier_fatal (records : List Record) (k minLen j : Nat) (r : Record)
    (hr : nth records j = some r) (hacc : accepts k minLen r j)
    (hbad : is_acceptable_identifier r.id = false) :
    (∃ msg, find_edges records k minLen = .err msg) ∧
    (∃ msg, run_main records k minLen = .err msg) := by
  have hacc0 : accepts k minLen r (0 + j) := by
    have h : 0 + j = j := by omega
    rw [h]
    exact hacc
  obtain ⟨msg, hmsg⟩ := processRecords_err_of_bad k minLen records (Kmers.new k) [] 0 j r
    rfl hr hacc0 hbad
  have hfe : find_edges records k minLen = .err msg := by
    unfold find_edges
    rw [hmsg]
  refine ⟨⟨msg, hfe⟩, ⟨msg, ?_⟩⟩
  unfold run_main
  rw [hfe]

/-- Witness for C9: a single accepted contig "AAAA" (k = 3, min length 1)
whose identifier "b a" contains a space. -/
theorem C9_invalid_identifier_fatal_witness :
    (∃ msg, find_edges [⟨[98, 32, 97], [65, 65, 65, 65]⟩] 3 1 = .err msg) ∧
    (∃ msg, run_main [⟨[98, 32, 97], [65, 65, 65, 65]⟩] 3 1 = .err msg) :=
  C9_invalid_identifier_fatal [⟨[98, 32, 97], [65, 65, 65, 65]⟩] 3 1 0
    ⟨[98, 32, 97], [65, 65, 65, 65]⟩ rfl (by decide) (by decide)

end Megagfa

namespace Megagfa

theorem tagIndex_of_lt (x : Nat) (hx : x < 2 ^ 31) : tagIndex x = x := by
  unfold tagIndex
  rw [show (0x7fffffff : Nat) = 2 ^ 31 - 1 by norm_num,
    Nat.and_pow_two_sub_one_eq_mod, Nat.mod_eq_of_lt hx]

theorem testBit_mask31 (j : Nat) : Nat.testBit 2147483647 j = decide (j < 31) := by
  rw [show (2147483647 : Nat) = 2 ^ 31 - 1 by norm_num]
  exact Nat.testBit_two_pow_sub_one 31 j

theorem testBit_high31 (j : Nat) : Nat.testBit 2147483648 j = decide (31 = j) := by
  rw [show (2147483648 : Nat) = 2 ^ 31 by norm_num]
  exact Nat.testBit_two_pow

theorem tagIndex_or_high (x : Nat) (hx : x < 2 ^ 31) :
    tagIndex (x ||| 0x80000000) = x := by
  unfold tagIndex
  apply Nat.eq_of_testBit_eq
  intro j
  rw [Nat.testBit_and, Nat.testBit_lor, testBit_mask31 j, testBit_high31 j]
  rcases Nat.lt_or_ge j 31 with hj | hj
  · have e1 : decide (31 = j) = false := by
      simp only [decide_eq_false_iff_not]
      omega
    have e2 : decide (j < 31) = true := by
      simp only [decide_eq_true_eq]
      exact hj
    rw [e1, e2, Bool.or_false, Bool.and_true]
  · have e2 : decide (j < 31) = false := by
      simp only [decide_eq_false_iff_not]
      omega
    have e3 : x.testBit j = false :=
      Nat.testBit_lt_two_pow (lt_of_lt_of_le hx (Nat.pow_le_pow_right (by norm_num) hj))
    rw [e2, e3, Bool.and_false]

theorem tagIndex_flip (t : Nat) : tagIndex (tagFlip t) = tagIndex t := by
  unfold tagIndex tagFlip
  apply Nat.eq_of_testBit_eq
  intro j
  rw [Nat.testBit_and, Nat.testBit_and, Nat.testBit_xor, testBit_mask31 j,
    testBit_high31 j]
  rcases Nat.lt_or_ge j 31 with hj | hj
  · have e1 : decide (31 = j) = false := by
      simp only [decide_eq_false_iff_not]
      omega
    rw [e1, Bool.xor_false]
  · have e2 : decide (j < 31) = false := by
      simp only [decide_eq_false_iff_not]
      omega
    rw [e2, Bool.and_false, Bool.and_false]

theorem nth_append_lt {α : Type} : ∀ (l l2 : List α) (p : Nat), p < l.length →
    nth (l ++ l2) p = nth l p
  | [], _, _, h => by cases h
  | _ :: _, _, 0, _ => rfl
  | _ :: xs, l2, p + 1, h =>
    nth_append_lt xs l2 p (by simpa using Nat.lt_of_succ_lt_succ (by simpa using h))

theorem nth_append_len {α : Type} : ∀ (l : List α) (x : α) (l2 : List α),
    nth (l ++ x :: l2) l.length = some x
  | [], _, _ => rfl
  | _ :: xs, x, l2 => nth_append_len xs x l2

end Megagfa

namespace Megagfa

theorem Kmers.add_false_of_short (km : Kmers) (seq : List Nat) (i : Nat)
    (h : seq.length < km.k) : km.add seq i = (km, false) := by
  unfold Kmers.add
  by_cases h1 : i ≤ 0x7fffffff
  · rw [if_pos h1, if_neg (by omega)]
  · rw [if_neg h1]

theorem Kmers.add_data_mem (km : Kmers) (seq : List Nat) (i : Nat) :
    ∀ t ∈ (km.add seq i).1.data,
      t ∈ km.data ∨ (tagIndex t = i ∧ km.k ≤ seq.length) := by
  intro t ht
  unfold Kmers.add at ht
  by_cases h1 : i ≤ 0x7fffffff
  · rw [if_pos h1] at ht
    by_cases h2 : km.k ≤ seq.length
    · rw [if_pos h2] at ht
      have hi31 : i < 2 ^ 31 := by
        norm_num at h1 ⊢
        omega
      cases hlead : translate (seq.take km.k) with
      | some enc =>
        simp only [hlead] at ht
        cases htrail : translate (seq.drop (seq.length - km.k)) with
        | some enc2 =>
          simp only [htrail] at ht
          simp only [List.mem_append, List.mem_singleton] at ht
          rcases ht with (ht | ht) | ht
          · exact Or.inl ht
          · rw [ht]
            exact Or.inr ⟨tagIndex_of_lt i hi31, h2⟩
          · rw [ht]
            exact Or.inr ⟨tagIndex_or_high i hi31, h2⟩
        | none =>
          simp only [htrail] at ht
          simp only [List.mem_append, List.mem_singleton] at ht
          rcases ht with ht | ht
          · exact Or.inl ht
          · rw [ht]
            exact Or.inr ⟨tagIndex_of_lt i hi31, h2⟩
      | none =>
        simp only [hlead] at ht
        cases htrail : translate (seq.drop (seq.length - km.k)) with
        | some enc2 =>
          simp only [htrail] at ht
          simp only [List.mem_append, List.mem_singleton] at ht
          rcases ht with ht | ht
          · exact Or.inl ht
          · rw [ht]
            exact Or.inr ⟨tagIndex_or_high i hi31, h2⟩
        | none =>
          simp only [htrail] at ht
          exact Or.inl ht
    · rw [if_neg h2] at ht
      exact Or.inl ht
  · rw [if_neg h1] at ht
    exact Or.inl ht

theorem processRecords_ok_ids (minLen : Nat) :
    ∀ (records : List Record) (km : Kmers) (ids : List (Option (List Nat))) (idx : Nat)
      (km2 : Kmers) (ids2 : List (Option (List Nat))),
      processRecords minLen km ids idx records = .ok (km2, ids2) →
      ((∀ p, p < ids.length → nth ids2 p = nth ids p) ∧
       (∀ j r, nth records j = some r → r.seq.length < max km.k minLen →
         nth ids2 (ids.length + j) = some none))
  | [], km, ids, idx, km2, ids2, h => by
    have h2 : km = km2 ∧ ids = ids2 := by
      cases h
      exact ⟨rfl, rfl⟩
    obtain ⟨hkm, hids⟩ := h2
    subst hids
    refine ⟨fun p _ => rfl, fun j r hr _ => ?_⟩
    cases j <;> cases hr
  | r0 :: rest, km, ids, idx, km2, ids2, h => by
    by_cases hmin : minLen ≤ r0.seq.length
    · rw [show processRecords minLen km ids idx (r0 :: rest)
          = (if minLen ≤ r0.seq.length then
              match km.add r0.seq idx with
              | (km2, true) =>
                if is_acceptable_identifier r0.id then
                  processRecords minLen km2 (ids ++ [some r0.id]) (idx + 1) rest
                else .err "Invalid record identifier"
              | (km2, false) => processRecords minLen km2 (ids ++ [none]) (idx + 1) rest
            else processRecords minLen km (ids ++ [none]) (idx + 1) rest) from rfl,
        if_pos hmin] at h
      cases hadd : km.add r0.seq idx with
      | mk kmA fl =>
        rw [hadd] at h
        have hkA : kmA.k = km.k := by
          have hh := Kmers.add_k km r0.seq idx
          rw [hadd] at hh
          exact hh
        cases fl
        · have ih := processRecords_ok_ids minLen rest kmA (ids ++ [none]) (idx + 1) km2 ids2 h
          constructor
          · intro p hp
            rw [ih.1 p (by simp; omega), nth_append_lt ids [none] p hp]
          · intro j r hr hshort
            cases j with
            | zero =>
              simp only [Nat.add_zero]
              rw [ih.1 ids.length (by simp)]
              exact nth_append_len ids none []
            | succ j2 =>
              have hr2 : nth rest j2 = some r := hr
              have hres := ih.2 j2 r hr2 (by rw [hkA]; exact hshort)
              have hlen : (ids ++ [none]).length + j2 = ids.length + (j2 + 1) := by
                simp
                omega
              rw [hlen] at hres
              exact hres
        · by_cases hid : is_acceptable_identifier r0.id = true
          · have h2 : (if is_acceptable_identifier r0.id = true then
                processRecords minLen kmA (ids ++ [some r0.id]) (idx + 1) rest
              else RunResult.err "Invalid record identifier") = RunResult.ok (km2, ids2) := h
            rw [if_pos hid] at h2
            have ih := processRecords_ok_ids minLen rest kmA (ids ++ [some r0.id]) (idx + 1)
              km2 ids2 h2
            constructor
            · intro p hp
              rw [ih.1 p (by simp; omega), nth_append_lt ids [some r0.id] p hp]
            · intro j r hr hshort
              cases j with
              | zero =>
                have hr0 : r0 = r := by
                  have hh : some r0 = some r := hr
                  cases hh
                  rfl
                subst hr0
                exfalso
                rcases lt_max_iff.mp hshort with hs | hs
                · have := Kmers.add_false_of_short km r0.seq idx hs
                  rw [this] at hadd
                  cases hadd
                · omega
              | succ j2 =>
                have hr2 : nth rest j2 = some r := hr
                have hres := ih.2 j2 r hr2 (by rw [hkA]; exact hshort)
                have hlen : (ids ++ [some r0.id]).length + j2 = ids.length + (j2 + 1) := by
                  simp
                  omega
                rw [hlen] at hres
                exact hres
          · have h2 : (if is_acceptable_identifier r0.id = true then
                processRecords minLen kmA (ids ++ [some r0.id]) (idx + 1) rest
              else RunResult.err "Invalid record identifier") = RunResult.ok (km2, ids2) := h
            rw [if_neg hid] at h2
            cases h2
    · rw [show processRecords minLen km ids idx (r0 :: rest)
          = (if minLen ≤ r0.seq.length then
              match km.add r0.seq idx with
              | (km2, true) =>
                if is_acceptable_identifier r0.id then
                  processRecords minLen km2 (ids ++ [some r0.id]) (idx + 1) rest
                else .err "Invalid record identifier"
              | (km2, false) => processRecords minLen km2 (ids ++ [none]) (idx + 1) rest
            else processRecords minLen km (ids ++ [none]) (idx + 1) rest) from rfl,
        if_neg hmin] at h
      have ih := processRecords_ok_ids minLen rest km (ids ++ [none]) (idx + 1) km2 ids2 h
      constructor
      · intro p hp
        rw [ih.1 p (by simp; omega), nth_append_lt ids [none] p hp]
      · intro j r hr hshort
        cases j with
        | zero =>
          simp only [Nat.add_zero]
          rw [ih.1 ids.length (by simp)]
          exact nth_append_len ids none []
        | succ j2 =>
          have hr2 : nth rest j2 = some r := hr
          have hres := ih.2 j2 r hr2 hshort
          have hlen : (ids ++ [none]).length + j2 = ids.length + (j2 + 1) := by
            simp
            omega
          rw [hlen] at hres
          exact hres

end Megagfa

namespace Megagfa

theorem processRecords_ok_data (minLen : Nat) :
    ∀ (records : List Record) (km : Kmers) (ids : List (Option (List Nat))) (idx : Nat)
      (km2 : Kmers) (ids2 : List (Option (List Nat))),
      processRecords minLen km ids idx records = .ok (km2, ids2) →
      ∀ t ∈ km2.data, t ∈ km.data ∨
        ∃ j r, nth records j = some r ∧ tagIndex t = idx + j ∧
          minLen ≤ r.seq.length ∧ km.k ≤ r.seq.length
  | [], km, ids, idx, km2, ids2, h => by
    intro t ht
    have h2 : km = km2 := by
      cases h
      rfl
    subst h2
    exact Or.inl ht
  | r0 :: rest, km, ids, idx, km2, ids2, h => by
    intro t ht
    by_cases hmin : minLen ≤ r0.seq.length
    · rw [show processRecords minLen km ids idx (r0 :: rest)
          = (if minLen ≤ r0.seq.length then
              match km.add r0.seq idx with
              | (km2, true) =>
                if is_acceptable_identifier r0.id then
                  processRecords minLen km2 (ids ++ [some r0.id]) (idx + 1) rest
                else .err "Invalid record identifier"
              | (km2, false) => processRecords minLen km2 (ids ++ [none]) (idx + 1) rest
            else processRecords minLen km (ids ++ [none]) (idx + 1) rest) from rfl,
        if_pos hmin] at h
      cases hadd : km.add r0.seq idx with
      | mk kmA fl =>
        rw [hadd] at h
        have hkA : kmA.k = km.k := by
          have hh := Kmers.add_k km r0.seq idx
          rw [hadd] at hh
          exact hh
        have hstep : ∀ t2, t2 ∈ kmA.data →
            t2 ∈ km.data ∨ (tagIndex t2 = idx ∧ km.k ≤ r0.seq.length) := by
          intro t2 ht2
          have hh := Kmers.add_data_mem km r0.seq idx t2
          rw [hadd] at hh
          exact hh ht2
        have hconc : (t ∈ kmA.data ∨
            ∃ j r, nth rest j = some r ∧ tagIndex t = (idx + 1) + j ∧
              minLen ≤ r.seq.length ∧ kmA.k ≤ r.seq.length) →
            (t ∈ km.data ∨ ∃ j r, nth (r0 :: rest) j = some r ∧ tagIndex t = idx + j ∧
              minLen ≤ r.seq.length ∧ km.k ≤ r.seq.length) := by
          rintro (hin | ⟨j, r, hr, hti, hm, hk⟩)
          · rcases hstep t hin with h1 | ⟨h1, h2⟩
            · exact Or.inl h1
            · exact Or.inr ⟨0, r0, rfl, by omega, hmin, h2⟩
          · refine Or.inr ⟨j + 1, r, hr, by omega, hm, ?_⟩
            rw [← hkA]
            exact hk
        cases fl
        · exact hconc (processRecords_ok_data minLen rest kmA (ids ++ [none]) (idx + 1)
            km2 ids2 h t ht)
        · by_cases hid : is_acceptable_identifier r0.id = true
          · have h2 : (if is_acceptable_identifier r0.id = true then
                processRecords minLen kmA (ids ++ [some r0.id]) (idx + 1) rest
              else RunResult.err "Invalid record identifier") = RunResult.ok (km2, ids2) := h
            rw [if_pos hid] at h2
            exact hconc (processRecords_ok_data minLen rest kmA (ids ++ [some r0.id])
              (idx + 1) km2 ids2 h2 t ht)
          · have h2 : (if is_acceptable_identifier r0.id = true then
                processRecords minLen kmA (ids ++ [some r0.id]) (idx + 1) rest
              else RunResult.err "Invalid record identifier") = RunResult.ok (km2, ids2) := h
            rw [if_neg hid] at h2
            cases h2
    · rw [show processRecords minLen km ids idx (r0 :: rest)
          = (if minLen ≤ r0.seq.length then
              match km.add r0.seq idx with
              | (km2, true) =>
                if is_acceptable_identifier r0.id then
                  processRecords minLen km2 (ids ++ [some r0.id]) (idx + 1) rest
                else .err "Invalid record identifier"
              | (km2, false) => processRecords minLen km2 (ids ++ [none]) (idx + 1) rest
            else processRecords minLen km (ids ++ [none]) (idx + 1) rest) from rfl,
        if_neg hmin] at h
      rcases processRecords_ok_data minLen rest km (ids ++ [none]) (idx + 1) km2 ids2 h t ht
        with h1 | ⟨j, r, hr, hti, hm, hk⟩
      · exact Or.inl h1
      · exact Or.inr ⟨j + 1, r, hr, by omega, hm, hk⟩

theorem mem_concatMap {α β : Type} (f : α → List β) :
    ∀ (l : List α) (y : β), y ∈ concatMap f l ↔ ∃ x ∈ l, y ∈ f x
  | [], y => by simp [concatMap]
  | x :: xs, y => by
    simp only [concatMap, List.mem_append, mem_concatMap f xs y]
    constructor
    · rintro (h | ⟨a, ha, hy⟩)
      · exact ⟨x, by simp, h⟩
      · exact ⟨a, by simp [ha], hy⟩
    · rintro ⟨a, ha, hy⟩
      rcases List.mem_cons.mp ha with h | h
      · subst h
        exact Or.inl hy
      · exact Or.inr ⟨a, h, hy⟩

theorem lookupA_mem : ∀ (m : List (List Nat × List Nat)) (key v : List Nat),
    lookupA m key = some v → ∃ p ∈ m, p.2 = v
  | [], _, _, h => by cases h
  | p :: rest, key, v, h => by
    unfold lookupA at h
    by_cases hk : p.1 = key
    · rw [if_pos hk] at h
      cases h
      exact ⟨p, by simp, rfl⟩
    · rw [if_neg hk] at h
      obtain ⟨q, hq, hv⟩ := lookupA_mem rest key v h
      exact ⟨q, by simp [hq], hv⟩

theorem tagIn_insertTag : ∀ (m : List (List Nat × List Nat)) (key : List Nat) (s t : Nat),
    tagIn t (insertTag m key s) → tagIn t m ∨ t = s
  | [], key, s, t, h => by
    obtain ⟨p, hp, ht⟩ := h
    simp only [insertTag, List.mem_singleton] at hp
    subst hp
    simp only [List.mem_singleton] at ht
    exact Or.inr ht
  | p :: rest, key, s, t, h => by
    unfold insertTag at h
    by_cases hk : p.1 = key
    · rw [if_pos hk] at h
      obtain ⟨q, hq, ht⟩ := h
      rcases List.mem_cons.mp hq with h1 | h1
      · subst h1
        simp only [List.mem_append, List.mem_singleton] at ht
        rcases ht with h2 | h2
        · exact Or.inl ⟨p, by simp, h2⟩
        · exact Or.inr h2
      · exact Or.inl ⟨q, by simp [h1], ht⟩
    · rw [if_neg hk] at h
      obtain ⟨q, hq, ht⟩ := h
      rcases List.mem_cons.mp hq with h1 | h1
      · subst h1
        exact Or.inl ⟨q, by simp, ht⟩
      · rcases tagIn_insertTag rest key s t ⟨q, h1, ht⟩ with h2 | h2
        · obtain ⟨q2, hq2, ht2⟩ := h2
          exact Or.inl ⟨q2, by simp [hq2], ht2⟩
        · exact Or.inr h2

theorem tagIn_foldl_insert : ∀ (l : List (Nat × List Nat)) (m0 : List (List Nat × List Nat))
    (t : Nat), tagIn t (l.foldl (fun m p => insertTag m p.2 p.1) m0) →
    tagIn t m0 ∨ ∃ p ∈ l, p.1 = t
  | [], m0, t, h => Or.inl h
  | q :: rest, m0, t, h => by
    rcases tagIn_foldl_insert rest (insertTag m0 q.2 q.1) t h with h1 | h1
    · rcases tagIn_insertTag m0 q.2 q.1 t h1 with h2 | h2
      · exact Or.inl h2
      · exact Or.inr ⟨q, by simp, h2.symm⟩
    · obtain ⟨p, hp, hpt⟩ := h1
      exact Or.inr ⟨p, by simp [hp], hpt⟩

theorem tagIn_buildMap (l : List (Nat × List Nat)) (t : Nat) (h : tagIn t (buildMap l)) :
    ∃ p ∈ l, p.1 = t := by
  rcases tagIn_foldl_insert l [] t h with h1 | h1
  · obtain ⟨p, hp, _⟩ := h1
    cases hp
  · exact h1

theorem edgesOfMap_endpoints (k : Nat) (m : List (List Nat × List Nat)) (e : Nat × Nat)
    (he : e ∈ edgesOfMap k m) :
    (∃ t, tagIn t m ∧ e.1 = tagFlip t) ∧ tagIn e.2 m := by
  unfold edgesOfMap at he
  rw [mem_concatMap] at he
  obtain ⟨p, hp, hpe⟩ := he
  unfold edgeFun at hpe
  cases hl : lookupA m (reverse_complement k p.1) with
  | none =>
    rw [hl] at hpe
    cases hpe
  | some starts =>
    rw [hl] at hpe
    rw [mem_concatMap] at hpe
    obtain ⟨s, hs, hse⟩ := hpe
    rw [List.mem_map] at hse
    obtain ⟨t, ht, hte⟩ := hse
    obtain ⟨q, hq, hqv⟩ := lookupA_mem m _ starts hl
    constructor
    · refine ⟨t, ⟨p, hp, ht⟩, ?_⟩
      rw [← hte]
    · have h2 : e.2 = s := by rw [← hte]
      rw [h2]
      refine ⟨q, hq, ?_⟩
      rw [hqv]
      exact hs

theorem iter_kmers_fst (km : Kmers) (l : List (Nat × List Nat))
    (h : km.iter_kmers = some l) : ∀ x ∈ l, x.1 ∈ km.data := by
  unfold Kmers.iter_kmers at h
  by_cases h0 : km.data.length = 0
  · rw [if_pos h0] at h
    cases h
  · rw [if_neg h0] at h
    by_cases hcs : km.mers.length / km.data.length = 0
    · rw [if_pos hcs] at h
      cases h
    · rw [if_neg hcs] at h
      cases h
      rintro ⟨a, b⟩ hx
      exact (List.of_mem_zip hx).1

end Megagfa

namespace Megagfa

/-- C8: a contig whose sequence is shorter than max(k, min_contig_length)
produces no node and no edges: when `find_edges` succeeds, that contig's
identifier slot is absent and no edge endpoint references its index. -/
theorem C8_length_exclusion (records : List Record) (k minLen i : Nat) (r : Record)
    (hr : nth records i = some r) (hshort : r.seq.length < max k minLen)
    (ids : List (Option (List Nat))) (edges : List (Nat × Nat))
    (hrun : find_edges records k minLen = .ok (ids, edges)) :
    nth ids i = some none ∧ ∀ e ∈ edges, tagIndex e.1 ≠ i ∧ tagIndex e.2 ≠ i := by
  unfold find_edges at hrun
  cases hpr : processRecords minLen (Kmers.new k) [] 0 records with
  | fatal =>
    rw [hpr] at hrun
    cases hrun
  | err m =>
    rw [hpr] at hrun
    cases hrun
  | ok pr =>
    obtain ⟨km2, ids2⟩ := pr
    rw [hpr] at hrun
    have hrun2 : (match km2.iter_kmers with
        | none => RunResult.fatal
        | some l2 => RunResult.ok (ids2, edgesOfMap k (buildMap l2)))
        = RunResult.ok (ids, edges) := hrun
    cases hik : km2.iter_kmers with
    | none =>
      rw [hik] at hrun2
      cases hrun2
    | some l =>
      rw [hik] at hrun2
      cases hrun2
      have hidx : ∀ t, t ∈ km2.data → tagIndex t ≠ i := by
        intro t ht hcontra
        rcases processRecords_ok_data minLen records (Kmers.new k) [] 0 km2 ids hpr t ht
          with h1 | ⟨j, r2, hr2, hti, hm2, hk2⟩
        · cases h1
        · have hj : j = i := by omega
          subst hj
          rw [hr2] at hr
          have hrr : r2 = r := by
            cases hr
            rfl
          subst hrr
          have hmax : max k minLen ≤ r2.seq.length := max_le hk2 hm2
          omega
      constructor
      · have hids := processRecords_ok_ids minLen records (Kmers.new k) [] 0 km2 ids hpr
        have hres := hids.2 i r hr hshort
        simpa using hres
      · intro e he
        have hend := edgesOfMap_endpoints k (buildMap l) e he
        obtain ⟨⟨t, htin, hte⟩, hsin⟩ := hend
        have hmem : ∀ t2, tagIn t2 (buildMap l) → t2 ∈ km2.data := by
          intro t2 ht2
          obtain ⟨p, hp, hpt⟩ := tagIn_buildMap l t2 ht2
          rw [← hpt]
          exact iter_kmers_fst km2 l hik p hp
        constructor
        · rw [hte, tagIndex_flip]
          exact hidx t (hmem t htin)
        · exact hidx e.2 (hmem e.2 hsin)

/-- Witness for C8: two contigs with k = 3, min length 1; the first ("AC")
is shorter than max(3, 1) and gets an absent slot and no edge endpoints;
the second ("AAAA") self-matches. -/
theorem C8_length_exclusion_witness :
    nth [none, some [121]] 0 = some none ∧
    ∀ e ∈ [((2147483649 : Nat), (2147483649 : Nat)), ((1 : Nat), (1 : Nat))],
      tagIndex e.1 ≠ 0 ∧ tagIndex e.2 ≠ 0 :=
  C8_length_exclusion [⟨[120], [65, 67]⟩, ⟨[121], [65, 65, 65, 65]⟩] 3 1 0
    ⟨[120], [65, 67]⟩ rfl (by decide) [none, some [121]]
    [(2147483649, 2147483649), (1, 1)] (by decide)

end Megagfa

namespace Megagfa

theorem memB_iff : ∀ (l : List Nat) (x : Nat), memB x l = true ↔ x ∈ l
  | [], x => by simp [memB]
  | y :: ys, x => by
    simp [memB, memB_iff ys x]

theorem memB_append : ∀ (l1 l2 : List Nat) (x : Nat),
    memB x (l1 ++ l2) = (memB x l1 || memB x l2)
  | [], _, _ => rfl
  | y :: ys, l2, x => by
    show (x == y || memB x (ys ++ l2)) = ((x == y || memB x ys) || memB x l2)
    rw [memB_append ys l2 x, Bool.or_assoc]

theorem nodupB_append_left : ∀ (l1 l2 : List Nat), nodupB (l1 ++ l2) = true →
    nodupB l1 = true
  | [], _, _ => rfl
  | y :: ys, l2, h => by
    have h2 : (!(memB y (ys ++ l2)) && nodupB (ys ++ l2)) = true := h
    rw [Bool.and_eq_true] at h2
    obtain ⟨hm, hn⟩ := h2
    show (!(memB y ys) && nodupB ys) = true
    rw [Bool.and_eq_true]
    refine ⟨?_, nodupB_append_left ys l2 hn⟩
    rw [memB_append ys l2 y] at hm
    cases hmy : memB y ys
    · rfl
    · rw [hmy] at hm
      simp at hm

theorem nodupB_append_right : ∀ (l1 l2 : List Nat), nodupB (l1 ++ l2) = true →
    nodupB l2 = true
  | [], _, h => h
  | y :: ys, l2, h => by
    have h2 : (!(memB y (ys ++ l2)) && nodupB (ys ++ l2)) = true := h
    rw [Bool.and_eq_true] at h2
    exact nodupB_append_right ys l2 h2.2

theorem nodupB_append_disj : ∀ (l1 l2 : List Nat) (x : Nat), nodupB (l1 ++ l2) = true →
    x ∈ l1 → x ∉ l2
  | [], _, _, _, hx => by cases hx
  | y :: ys, l2, x, h, hx => by
    have h2 : (!(memB y (ys ++ l2)) && nodupB (ys ++ l2)) = true := h
    rw [Bool.and_eq_true] at h2
    obtain ⟨hm, hn⟩ := h2
    rcases List.mem_cons.mp hx with hxy | hxy
    · intro hc
      rw [hxy] at hc
      rw [memB_append ys l2 y, (memB_iff l2 y).mpr hc] at hm
      simp at hm
    · exact nodupB_append_disj ys l2 x hn hxy

theorem cntN_append : ∀ (l1 l2 : List Nat) (x : Nat),
    cntN x (l1 ++ l2) = cntN x l1 + cntN x l2
  | [], l2, x => (Nat.zero_add _).symm
  | y :: ys, l2, x => by
    show (if y = x then 1 else 0) + cntN x (ys ++ l2)
        = ((if y = x then 1 else 0) + cntN x ys) + cntN x l2
    rw [cntN_append ys l2 x]
    omega

theorem cnt_append : ∀ (l1 l2 : List (Nat × Nat)) (x : Nat × Nat),
    cnt x (l1 ++ l2) = cnt x l1 + cnt x l2
  | [], l2, x => (Nat.zero_add _).symm
  | y :: ys, l2, x => by
    show (if y = x then 1 else 0) + cnt x (ys ++ l2)
        = ((if y = x then 1 else 0) + cnt x ys) + cnt x l2
    rw [cnt_append ys l2 x]
    omega

theorem cntN_eq_zero : ∀ (l : List Nat) (x : Nat), x ∉ l → cntN x l = 0
  | [], _, _ => rfl
  | y :: ys, x, h => by
    have hxy : y ≠ x := fun hc => h (by simp [hc])
    show (if y = x then 1 else 0) + cntN x ys = 0
    rw [if_neg hxy, cntN_eq_zero ys x (fun hc => h (by simp [hc]))]

theorem cntN_nodup_mem : ∀ (l : List Nat) (x : Nat), nodupB l = true → x ∈ l →
    cntN x l = 1
  | [], _, _, hx => by cases hx
  | y :: ys, x, h, hx => by
    have h2 : (!(memB y ys) && nodupB ys) = true := h
    rw [Bool.and_eq_true] at h2
    obtain ⟨h1, hnd⟩ := h2
    show (if y = x then 1 else 0) + cntN x ys = 1
    by_cases hxy : y = x
    · have hnot : x ∉ ys := by
        intro hc
        rw [hxy, (memB_iff ys x).mpr hc] at h1
        simp at h1
      rw [if_pos hxy, cntN_eq_zero ys x hnot]
    · have hx2 : x ∈ ys := by
        rcases List.mem_cons.mp hx with hc | hc
        · exact absurd hc.symm hxy
        · exact hc
      rw [if_neg hxy, cntN_nodup_mem ys x hnd hx2]

theorem tagFlip_inj (a b : Nat) (h : tagFlip a = tagFlip b) : a = b := by
  unfold tagFlip at h
  have h2 : (a ^^^ 0x80000000) ^^^ 0x80000000 = (b ^^^ 0x80000000) ^^^ 0x80000000 := by
    rw [h]
  rwa [Nat.xor_cancel_right, Nat.xor_cancel_right] at h2

theorem cnt_map_flip_same : ∀ (ends : List Nat) (e s : Nat),
    cnt (tagFlip e, s) (ends.map (fun t => (tagFlip t, s))) = cntN e ends
  | [], _, _ => rfl
  | t :: ts, e, s => by
    show (if (tagFlip t, s) = (tagFlip e, s) then 1 else 0)
          + cnt (tagFlip e, s) (ts.map (fun t2 => (tagFlip t2, s)))
        = (if t = e then 1 else 0) + cntN e ts
    rw [cnt_map_flip_same ts e s]
    congr 1
    by_cases h : t = e
    · simp [h]
    · have hne : (tagFlip t, s) ≠ (tagFlip e, s) := by
        intro hc
        exact h (tagFlip_inj t e (congrArg Prod.fst hc))
      rw [if_neg hne, if_neg h]

theorem cnt_map_flip_ne : ∀ (ends : List Nat) (e s s2 : Nat), s2 ≠ s →
    cnt (tagFlip e, s) (ends.map (fun t => (tagFlip t, s2))) = 0
  | [], _, _, _, _ => rfl
  | t :: ts, e, s, s2, h => by
    show (if (tagFlip t, s2) = (tagFlip e, s) then 1 else 0)
          + cnt (tagFlip e, s) (ts.map (fun t2 => (tagFlip t2, s2))) = 0
    have hne : (tagFlip t, s2) ≠ (tagFlip e, s) := by
      intro hc
      exact h (congrArg Prod.snd hc)
    rw [if_neg hne, cnt_map_flip_ne ts e s s2 h]

theorem cnt_inner : ∀ (starts ends : List Nat) (e s : Nat),
    cnt (tagFlip e, s) (concatMap (fun s2 => ends.map (fun t => (tagFlip t, s2))) starts)
      = cntN s starts * cntN e ends
  | [], ends, e, s => by
    show (0 : Nat) = 0 * cntN e ends
    rw [Nat.zero_mul]
  | s2 :: ss, ends, e, s => by
    show cnt (tagFlip e, s) (ends.map (fun t => (tagFlip t, s2))
          ++ concatMap (fun s3 => ends.map (fun t => (tagFlip t, s3))) ss)
        = ((if s2 = s then 1 else 0) + cntN s ss) * cntN e ends
    rw [cnt_append, cnt_inner ss ends e s]
    by_cases h : s2 = s
    · subst h
      rw [cnt_map_flip_same, if_pos rfl]
      ring
    · rw [cnt_map_flip_ne ends e s s2 h, if_neg h]
      ring

theorem cnt_edgeFun (k : Nat) (m : List (List Nat × List Nat)) (p : List Nat × List Nat)
    (e s : Nat) :
    cnt (tagFlip e, s) (edgeFun k m p)
      = (match lookupA m (reverse_complement k p.1) with
         | some TE => cntN s TE
         | none => 0) * cntN e p.2 := by
  unfold edgeFun
  cases hl : lookupA m (reverse_complement k p.1) with
  | none =>
    show (0 : Nat) = 0 * cntN e p.2
    rw [Nat.zero_mul]
  | some starts => exact cnt_inner starts p.2 e s

theorem mem_flat : ∀ (m : List (List Nat × List Nat)) (p : List Nat × List Nat) (x : Nat),
    p ∈ m → x ∈ p.2 → x ∈ flat (m.map Prod.snd)
  | [], _, _, hp, _ => by cases hp
  | q :: rest, p, x, hp, hx => by
    have hflat : flat ((q :: rest).map Prod.snd) = q.2 ++ flat (rest.map Prod.snd) := rfl
    rw [hflat, List.mem_append]
    rcases List.mem_cons.mp hp with h1 | h1
    · subst h1
      exact Or.inl hx
    · exact Or.inr (mem_flat rest p x h1 hx)

theorem cnt_concatMap_zero (k : Nat) (m : List (List Nat × List Nat)) (e s : Nat) :
    ∀ l : List (List Nat × List Nat), e ∉ flat (l.map Prod.snd) →
      cnt (tagFlip e, s) (concatMap (edgeFun k m) l) = 0
  | [], _ => rfl
  | p :: rest, h => by
    have hflat : flat ((p :: rest).map Prod.snd) = p.2 ++ flat (rest.map Prod.snd) := rfl
    rw [hflat] at h
    simp only [List.mem_append] at h
    push_neg at h
    show cnt (tagFlip e, s) (edgeFun k m p ++ concatMap (edgeFun k m) rest) = 0
    rw [cnt_append, cnt_edgeFun, cnt_concatMap_zero k m e s rest h.2,
      cntN_eq_zero p.2 e h.1]
    ring

theorem nodupB_of_val : ∀ (m : List (List Nat × List Nat)) (q : List Nat × List Nat),
    q ∈ m → nodupB (flat (m.map Prod.snd)) = true → nodupB q.2 = true
  | [], _, hq, _ => by cases hq
  | p :: rest, q, hq, hnd => by
    have hflat : flat ((p :: rest).map Prod.snd) = p.2 ++ flat (rest.map Prod.snd) := rfl
    rw [hflat] at hnd
    rcases List.mem_cons.mp hq with h1 | h1
    · rw [h1]
      exact nodupB_append_left _ _ hnd
    · exact nodupB_of_val rest q h1 (nodupB_append_right _ _ hnd)

theorem cnt_edges_entries (k : Nat) (m : List (List Nat × List Nat)) (e s : Nat)
    (K TK : List Nat) :
    ∀ l : List (List Nat × List Nat), nodupB (flat (l.map Prod.snd)) = true →
      (K, TK) ∈ l → e ∈ TK →
      cnt (tagFlip e, s) (concatMap (edgeFun k m) l)
        = (match lookupA m (reverse_complement k K) with
           | some TE => cntN s TE
           | none => 0)
  | [], _, hm, _ => by cases hm
  | p :: rest, hnd, hm, he => by
    have hflat : flat ((p :: rest).map Prod.snd) = p.2 ++ flat (rest.map Prod.snd) := rfl
    rw [hflat] at hnd
    show cnt (tagFlip e, s) (edgeFun k m p ++ concatMap (edgeFun k m) rest) = _
    rw [cnt_append, cnt_edgeFun]
    by_cases hep : e ∈ p.2
    · have hpK : p = (K, TK) := by
        rcases List.mem_cons.mp hm with h1 | h1
        · exact h1.symm
        · exfalso
          exact nodupB_append_disj p.2 _ e hnd hep (mem_flat rest (K, TK) e h1 he)
      have hrest0 : cnt (tagFlip e, s) (concatMap (edgeFun k m) rest) = 0 :=
        cnt_concatMap_zero k m e s rest (nodupB_append_disj p.2 _ e hnd hep)
      have hcnt1 : cntN e p.2 = 1 :=
        cntN_nodup_mem p.2 e (nodupB_append_left _ _ hnd) hep
      rw [hrest0, hcnt1, hpK]
      ring
    · have hmrest : (K, TK) ∈ rest := by
        rcases List.mem_cons.mp hm with h1 | h1
        · exfalso
          apply hep
          rw [← h1]
          exact he
        · exact h1
      rw [cntN_eq_zero p.2 e hep,
        cnt_edges_entries k m e s K TK rest (nodupB_append_right _ _ hnd) hmrest he]
      ring

/-- C6: for a store whose tags are globally duplicate-free, the matcher
emits, for every indexed k-mer K with tag list `T_K` and every tag
`e ∈ T_K`, exactly one edge `(flip e, s)` for each `s` in the tag list
found under `reverse_complement K`, and no edge at all for `e` when that
reverse complement is absent from the index; self-matches are included
(no constraint relates `e` and `s`). -/
theorem C6_overlap_matcher (k : Nat) (m : List (List Nat × List Nat))
    (hnd : nodupB (allTags m) = true) (K TK : List Nat) (hm : (K, TK) ∈ m)
    (e : Nat) (he : e ∈ TK) :
    (∀ TE, lookupA m (reverse_complement k K) = some TE → ∀ s ∈ TE,
      cnt (tagFlip e, s) (edgesOfMap k m) = 1) ∧
    (lookupA m (reverse_complement k K) = none →
      ∀ s, cnt (tagFlip e, s) (edgesOfMap k m) = 0) := by
  constructor
  · intro TE hTE s hs
    have hmain := cnt_edges_entries k m e s K TK m hnd hm he
    rw [hTE] at hmain
    have hTEnodup : nodupB TE = true := by
      obtain ⟨q, hq, hqv⟩ := lookupA_mem m _ TE hTE
      rw [← hqv]
      exact nodupB_of_val m q hq hnd
    have hgoal : cnt (tagFlip e, s) (edgesOfMap k m) = cntN s TE := hmain
    rw [hgoal]
    exact cntN_nodup_mem TE s hTEnodup hs
  · intro hTE s
    have hmain := cnt_edges_entries k m e s K TK m hnd hm he
    rw [hTE] at hmain
    exact hmain

/-- Witness for C6: the single-contig store of "AAAA" with k = 3 — the
leading k-mer AAA (tag 1) matches the stored reverse-complemented
trailing k-mer (tag 2^31 + 1), a self-match, and exactly one such edge is
emitted. -/
theorem C6_overlap_matcher_witness :
    cnt (tagFlip 1, 2147483649) (edgesOfMap 3 [([0], [1]), ([63], [2147483649])]) = 1 :=
  (C6_overlap_matcher 3 [([0], [1]), ([63], [2147483649])] (by decide) [0] [1]
    (by decide) 1 (by decide)).1 [2147483649] (by decide) 2147483649 (by decide)

end Megagfa
